import Mathlib

/-!
# Verification of the grimoire spell templating engine

Shallow embedding of `src/parse.go`: the marker-scanning regex
`<([^\s][^<>]*[^\s])>`, `ParseSpell`, `Reconstruct`, and
`extractParamNameAndDefaults`, modelled over `List Char` (Go strings at
rune granularity).  the Go `map[string]string` argument of `Reconstruct` is
modelled as a lookup function `List Char → Option (List Char)`; the
`map[string]Param` built during parsing is modelled as an association
list inserted into only when the key is absent, which matches Go map
lookup semantics for that usage.
-/

namespace Grimoire

/-- RE2 character class `\s`, used by `paramRegex`: `[\t\n\f\r ]`. -/
def isSpaceRE (c : Char) : Bool :=
  c == ' ' || c == '\t' || c == '\n' || c == '\x0C' || c == '\r'

/-- Go `unicode.IsSpace`, used by `strings.TrimSpace`: ASCII whitespace
plus NEL, NBSP and the Unicode `White_Space` code points. -/
def isGoSpace (c : Char) : Bool :=
  c == ' ' || c == '\t' || c == '\n' || c == '\x0B' || c == '\x0C' || c == '\r' ||
  c == '\x85' || c == '\xA0' ||
  c.toNat == 0x1680 || (0x2000 ≤ c.toNat && c.toNat ≤ 0x200A) ||
  c.toNat == 0x2028 || c.toNat == 0x2029 || c.toNat == 0x202F ||
  c.toNat == 0x205F || c.toNat == 0x3000

/-- The characters excluded by the regex body class `[^<>]`. -/
def isAngle (c : Char) : Bool :=
  c == '<' || c == '>'

/-- Go `strings.TrimSpace` on rune lists. -/
def trimSpace (l : List Char) : List Char :=
  ((l.dropWhile isGoSpace).reverse.dropWhile isGoSpace).reverse

/-- Go `strings.SplitN(s, sep, 2)` for a one-rune separator: the part
before the first separator, and `some` the remainder when the separator
occurs. -/
def splitOnFirst (sep : Char) : List Char → List Char × Option (List Char)
  | [] => ([], none)
  | c :: cs =>
    if c = sep then ([], some cs)
    else
      let r := splitOnFirst sep cs
      (c :: r.1, r.2)

/-- Go `strings.Split(s, sep)` for a one-rune separator.  `Split("", sep)`
is `[""]`. -/
def splitChar (sep : Char) : List Char → List (List Char)
  | [] => [[]]
  | c :: cs =>
    let r := splitChar sep cs
    if c = sep then [] :: r
    else
      match r with
      | [] => [[c]]
      | h :: tl => (c :: h) :: tl

/-- Join with a one-rune separator; left inverse of `splitChar`. -/
def joinSep (sep : Char) : List (List Char) → List Char
  | [] => []
  | [h] => h
  | h :: tl => h ++ sep :: joinSep sep tl

/-- Length of the longest prefix of `t` the greedy `[^<>]*` can consume. -/
def runLen (t : List Char) : Nat :=
  (t.takeWhile (fun c => !isAngle c)).length

/-- Whether the tail of the regex (`[^\s]>` ) matches at offset `k` of `t`. -/
def checkAt (t : List Char) (k : Nat) : Bool :=
  match t.drop k with
  | c2 :: g :: _ => !isSpaceRE c2 && g == '>'
  | _ => false

/-- Backtracking search of the greedy star: the largest `k'` not above `k`
at which the remainder of the regex matches. -/
def backtrack (t : List Char) : Nat → Option Nat
  | 0 => if checkAt t 0 then some 0 else none
  | k + 1 => if checkAt t (k + 1) then some (k + 1) else backtrack t k

/-- Attempt of `paramRegex` anchored at the head of `s`, with leftmost-first
(backtracking) semantics as in the Go `regexp` package.  On success returns the
captured body (group 1) and the remainder of the string after the match. -/
def matchAt : List Char → Option (List Char × List Char)
  | '<' :: c1 :: t =>
    if isSpaceRE c1 then none
    else
      match backtrack t (runLen t) with
      | some k => some (c1 :: t.take (k + 1), t.drop (k + 2))
      | none => none
  | _ => none

/-- Fuel-indexed scanner; `fuel` at least the length of the string makes it
total.  Models `paramRegex.FindAllStringSubmatchIndex(spell, -1)` together
with the slicing `ParseSpell` performs on the match indices: the result is
the list of (literal text before the match, captured body) pairs in order,
plus the trailing literal text after the last match. -/
def scanAux : Nat → List Char → List (List Char × List Char) × List Char
  | 0, _ => ([], [])
  | fuel + 1, s =>
    match matchAt s with
    | some (body, rest) =>
      let p := scanAux fuel rest
      (([], body) :: p.1, p.2)
    | none =>
      match s with
      | [] => ([], [])
      | c :: cs =>
        let p := scanAux fuel cs
        match p.1 with
        | [] => ([], c :: p.2)
        | (pre, b) :: ms => ((c :: pre, b) :: ms, p.2)

/-- All non-overlapping leftmost matches of `paramRegex` in `s`, as
(preceding literal, body) pairs plus the trailing literal. -/
def scan (s : List Char) : List (List Char × List Char) × List Char :=
  scanAux s.length s

/-- Model of `Param` from `src/parse.go`: a parameter name with its declared default
values (`[]` models Go `nil`). -/
structure Param where
  name : List Char
  defaultValues : List (List Char)
deriving DecidableEq, Repr

/-- Model of `SpellSegments` from `src/parse.go`. -/
structure SpellSegments where
  segments : List (List Char)
  paramIndices : List Nat
  params : List Param
deriving DecidableEq, Repr

instance : Inhabited Param := ⟨⟨[], []⟩⟩

instance : Inhabited SpellSegments := ⟨⟨[], [], []⟩⟩

/-- The one parse error of the engine, `DuplicateDefault`: carries the
offending parameter name (`fmt.Errorf` in the Go source). -/
inductive ParseErr where
  | duplicateDefault (name : List Char)
deriving DecidableEq, Repr

/-- Outcome of `Reconstruct`: a successful final string, the
`MissingValue` error naming a parameter, or a Go runtime index panic
(`outOfBounds`) on an invalid slot index. -/
inductive RecResult where
  | outOfBounds
  | missingValue (name : List Char)
  | ok (result : List Char)
deriving DecidableEq, Repr

/-- Model of `extractParamNameAndDefaults` from `src/parse.go`: trim the body, split
on the first `=` into name and defaults text, trim the name, split the
defaults text on `;` (absent `=` gives no defaults). -/
def extractParamNameAndDefaults (body : List Char) : List Char × List (List Char) :=
  let paramText := trimSpace body
  let parts := splitOnFirst '=' paramText
  let name := trimSpace parts.1
  let defaultValues :=
    match parts.2 with
    | some rest => splitChar ';' rest
    | none => []
  (name, defaultValues)

/-- First-match association-list lookup, modelling Go map indexing for the
`paramMap` (whose keys are inserted only when absent). -/
def lookupParam : List (List Char × Param) → List Char → Option Param
  | [], _ => none
  | (k, v) :: rest, n => if k = n then some v else lookupParam rest n

/-- The match-processing loop of `ParseSpell` (lines 65–103 of
`src/parse.go`), one chunk per regex match: append the preceding literal
text when non-empty, extract name and defaults, reject a repeated name
that redeclares more than one default, record first occurrences in the
map and order list, and append the bare name as a slot segment. -/
def parseLoop :
    List (List Char × List Char) → List (List Char) → List Nat →
    List (List Char × Param) → List (List Char) →
    Except ParseErr (List (List Char) × List Nat × List (List Char × Param) × List (List Char))
  | [], segments, paramIndices, paramMap, paramOrder =>
    .ok (segments, paramIndices, paramMap, paramOrder)
  | (pre, body) :: rest, segments, paramIndices, paramMap, paramOrder =>
    let segments1 := if pre.isEmpty then segments else segments ++ [pre]
    let nd := extractParamNameAndDefaults body
    match lookupParam paramMap nd.1 with
    | some _ =>
      if nd.2.length > 1 then .error (.duplicateDefault nd.1)
      else
        parseLoop rest (segments1 ++ [nd.1]) (paramIndices ++ [(segments1 ++ [nd.1]).length - 1])
          paramMap paramOrder
    | none =>
      parseLoop rest (segments1 ++ [nd.1]) (paramIndices ++ [(segments1 ++ [nd.1]).length - 1])
        (paramMap ++ [(nd.1, ⟨nd.1, nd.2⟩)]) (paramOrder ++ [nd.1])

/-- Model of `ParseSpell` from `src/parse.go`. -/
def ParseSpell (spell : List Char) : Except ParseErr SpellSegments :=
  let sc := scan spell
  if sc.1.isEmpty then
    .ok ⟨[spell], [], []⟩
  else
    match parseLoop sc.1 [] [] [] [] with
    | .error e => .error e
    | .ok (segments, paramIndices, paramMap, paramOrder) =>
      let segments := if sc.2.isEmpty then segments else segments ++ [sc.2]
      .ok ⟨segments, paramIndices, paramOrder.filterMap (lookupParam paramMap)⟩

/-- The substitution loop of `Reconstruct` (lines 30–37 of
`src/parse.go`): for each slot index read the parameter name at that
index of the working copy, replace it by the mapped value, or fail with
`missingValue`; an out-of-range index is the Go runtime panic.  On
completion the copy is joined with no separator (`strings.Join`). -/
def substLoop (values : List Char → Option (List Char)) :
    List Nat → List (List Char) → RecResult
  | [], result => .ok result.flatten
  | idx :: rest, result =>
    match result.get? idx with
    | none => .outOfBounds
    | some paramName =>
      match values paramName with
      | some v => substLoop values rest (result.set idx v)
      | none => .missingValue paramName

/-- Model of `Reconstruct` from `src/parse.go`: copy the segments and substitute at
every slot index. -/
def SpellSegments.Reconstruct (ss : SpellSegments)
    (values : List Char → Option (List Char)) : RecResult :=
  substLoop values ss.paramIndices ss.segments

/-- State-passing rendering of the `Reconstruct` method: the receiver is
threaded through the substitution loop exactly as the Go method body
reads it (only `result`, the fresh copy, is ever written). Returns the
receiver as left by the call alongside the outcome of the call. -/
def substLoopSt (ss : SpellSegments) (values : List Char → Option (List Char)) :
    List Nat → List (List Char) → SpellSegments × RecResult
  | [], result => (ss, .ok result.flatten)
  | idx :: rest, result =>
    match result.get? idx with
    | none => (ss, .outOfBounds)
    | some paramName =>
      match values paramName with
      | some v => substLoopSt ss values rest (result.set idx v)
      | none => (ss, .missingValue paramName)

/-- The `Reconstruct` method call as a state transformer on its receiver. -/
def reconstructSt (ss : SpellSegments) (values : List Char → Option (List Char)) :
    SpellSegments × RecResult :=
  substLoopSt ss values ss.paramIndices ss.segments

/-! ## Specification-side definitions

These are not translations of the source; they give independent
characterisations against which the parser output is compared. -/

/-- The shape of a captured marker body under `paramRegex`: at least two
characters, the first and last not regex whitespace, and every interior
character neither `<` nor `>`. -/
def BodyShape (body : List Char) : Prop :=
  ∃ c1 mid c2, body = c1 :: mid ++ [c2] ∧
    isSpaceRE c1 = false ∧ isSpaceRE c2 = false ∧
    ∀ c ∈ mid, isAngle c = false

/-- The raw string with every recognised marker replaced by its bare
extracted parameter name and all surrounding literal text kept verbatim:
the "unsubstituted form" of the spell. -/
def replaceMarkers (s : List Char) : List Char :=
  ((scan s).1.map (fun pb => pb.1 ++ (extractParamNameAndDefaults pb.2).1)).flatten ++ (scan s).2

/-- Keep the first occurrence of every name, in order, with the payload of
that first occurrence. -/
def uniqueFirstAux (seen : List (List Char)) :
    List (List Char × List (List Char)) → List (List Char × List (List Char))
  | [] => []
  | (n, d) :: rest =>
    if n ∈ seen then uniqueFirstAux seen rest
    else (n, d) :: uniqueFirstAux (n :: seen) rest

/-- First-occurrence deduplication of (name, defaults) pairs. -/
def uniqueFirst (l : List (List Char × List (List Char))) :
    List (List Char × List (List Char)) :=
  uniqueFirstAux [] l

/-! ## Scanner lemmas -/

theorem matchAt_nil : matchAt [] = none := rfl

theorem matchAt_rest_lt {s body rest : List Char} (h : matchAt s = some (body, rest)) :
    rest.length < s.length := by
  rw [matchAt.eq_def] at h
  split at h
  · next c1 t =>
    split at h
    · exact absurd h (by simp)
    · split at h
      · next k hk =>
        simp only [Option.some.injEq, Prod.mk.injEq] at h
        obtain ⟨-, hrest⟩ := h
        subst hrest
        simp only [List.length_drop, List.length_cons]
        omega
      · exact absurd h (by simp)
  · exact absurd h (by simp)

theorem scanAux_adequate (f : Nat) :
    ∀ (f' : Nat) (s : List Char), s.length ≤ f → s.length ≤ f' →
      scanAux f s = scanAux f' s := by
  induction f with
  | zero =>
    intro f' s hf _
    have : s = [] := List.length_eq_zero.mp (Nat.le_zero.mp hf)
    subst this
    cases f' with
    | zero => rfl
    | succ f' => simp [scanAux, matchAt_nil]
  | succ f ih =>
    intro f' s hf hf'
    cases f' with
    | zero =>
      have : s = [] := List.length_eq_zero.mp (Nat.le_zero.mp hf')
      subst this
      simp [scanAux, matchAt_nil]
    | succ f' =>
      cases hm : matchAt s with
      | some br =>
        obtain ⟨body, rest⟩ := br
        have hlt := matchAt_rest_lt hm
        simp only [scanAux, hm]
        rw [ih f' rest (by omega) (by omega)]
      | none =>
        cases s with
        | nil => rfl
        | cons c cs =>
          simp only [scanAux, hm]
          simp only [List.length_cons] at hf hf'
          rw [ih f' cs (by omega) (by omega)]

theorem scan_nil : scan [] = ([], []) := rfl

theorem scan_match {s body rest : List Char} (h : matchAt s = some (body, rest)) :
    scan s = (([], body) :: (scan rest).1, (scan rest).2) := by
  have hlt := matchAt_rest_lt h
  cases s with
  | nil => simp [matchAt_nil] at h
  | cons c cs =>
    show scanAux (cs.length + 1) (c :: cs) = _
    simp only [scanAux, h]
    simp only [List.length_cons] at hlt
    rw [scanAux_adequate cs.length rest.length rest (by omega) le_rfl]
    rfl

theorem scan_shift_nil {c : Char} {cs : List Char} (h : matchAt (c :: cs) = none)
    (h1 : (scan cs).1 = []) : scan (c :: cs) = ([], c :: (scan cs).2) := by
  show scanAux (cs.length + 1) (c :: cs) = _
  simp only [scanAux, h]
  show (match (scan cs).1 with
    | [] => ([], c :: (scan cs).2)
    | (pre, b) :: ms => ((c :: pre, b) :: ms, (scan cs).2)) = _
  rw [h1]

theorem scan_shift_cons {c : Char} {cs pre b : List Char}
    {ms : List (List Char × List Char)} (h : matchAt (c :: cs) = none)
    (h1 : (scan cs).1 = (pre, b) :: ms) :
    scan (c :: cs) = ((c :: pre, b) :: ms, (scan cs).2) := by
  show scanAux (cs.length + 1) (c :: cs) = _
  simp only [scanAux, h]
  show (match (scan cs).1 with
    | [] => ([], c :: (scan cs).2)
    | (pre, b) :: ms => ((c :: pre, b) :: ms, (scan cs).2)) = _
  rw [h1]

theorem scan_no_match_trail_aux :
    ∀ (n : Nat) (s : List Char), s.length ≤ n → (scan s).1 = [] → (scan s).2 = s := by
  intro n
  induction n with
  | zero =>
    intro s hs _
    have : s = [] := List.length_eq_zero.mp (Nat.le_zero.mp hs)
    subst this
    rfl
  | succ n ih =>
    intro s hs h1
    cases s with
    | nil => rfl
    | cons c cs =>
      cases hm : matchAt (c :: cs) with
      | some br =>
        obtain ⟨body, rest⟩ := br
        rw [scan_match hm] at h1
        simp at h1
      | none =>
        cases h2 : (scan cs).1 with
        | nil =>
          rw [scan_shift_nil hm h2]
          simp only [List.length_cons] at hs
          have := ih cs (by omega) h2
          simp [this]
        | cons pb ms =>
          obtain ⟨pre, b⟩ := pb
          rw [scan_shift_cons hm h2] at h1
          simp at h1

theorem scan_no_match_trail {s : List Char} (h : (scan s).1 = []) : (scan s).2 = s :=
  scan_no_match_trail_aux s.length s le_rfl h

theorem substLoopSt_eq (ss : SpellSegments) (values : List Char → Option (List Char)) :
    ∀ (idxs : List Nat) (result : List (List Char)),
      substLoopSt ss values idxs result = (ss, substLoop values idxs result) := by
  intro idxs
  induction idxs with
  | nil => intro result; rfl
  | cons idx rest ih =>
    intro result
    cases hg : result.get? idx with
    | none => simp only [substLoopSt, substLoop, hg]
    | some paramName =>
      cases hv : values paramName with
      | none => simp only [substLoopSt, substLoop, hg, hv]
      | some v =>
        simp only [substLoopSt, substLoop, hg, hv]
        exact ih _

/-! ## Substitution-loop lemmas -/

theorem get?_exists_of_lt {α : Type} {l : List α} {n : Nat} (h : n < l.length) :
    ∃ a, l.get? n = some a :=
  ⟨l.get ⟨n, h⟩, List.get?_eq_get h⟩

theorem substLoop_not_oob (values : List Char → Option (List Char)) :
    ∀ (idxs : List Nat) (result : List (List Char)),
      (∀ i ∈ idxs, i < result.length) →
      substLoop values idxs result ≠ .outOfBounds := by
  intro idxs
  induction idxs with
  | nil => intro result _; simp [substLoop]
  | cons idx rest ih =>
    intro result hb
    obtain ⟨nm, hnm⟩ := get?_exists_of_lt (hb idx (by simp))
    cases hv : values nm with
    | none =>
      simp only [substLoop, hnm, hv]
      exact fun h => RecResult.noConfusion h
    | some v =>
      simp only [substLoop, hnm, hv]
      exact ih (result.set idx v) fun i hi => by
        rw [List.length_set]; exact hb i (List.mem_cons_of_mem _ hi)

theorem substLoop_ok (values : List Char → Option (List Char)) :
    ∀ (idxs : List Nat) (result : List (List Char)),
      (∀ i ∈ idxs, i < result.length) → idxs.Pairwise (· ≠ ·) →
      (∀ i ∈ idxs, ∀ nm, result.get? i = some nm → (values nm).isSome = true) →
      ∃ out, substLoop values idxs result = .ok out := by
  intro idxs
  induction idxs with
  | nil => intro result _ _ _; exact ⟨result.flatten, rfl⟩
  | cons idx rest ih =>
    intro result hb hp hv
    obtain ⟨nm, hnm⟩ := get?_exists_of_lt (hb idx (by simp))
    obtain ⟨v, hvv⟩ := Option.isSome_iff_exists.mp (hv idx (by simp) nm hnm)
    simp only [substLoop, hnm, hvv]
    obtain ⟨hphead, hptail⟩ := List.pairwise_cons.mp hp
    refine ih (result.set idx v) (fun i hi => ?_) hptail (fun i hi nm' hnm' => ?_)
    · rw [List.length_set]; exact hb i (List.mem_cons_of_mem _ hi)
    · rw [List.get?_set_ne v result (hphead i hi)] at hnm'
      exact hv i (List.mem_cons_of_mem _ hi) nm' hnm'

theorem substLoop_missing (values : List Char → Option (List Char)) :
    ∀ (idxs : List Nat) (result : List (List Char)),
      (∀ i ∈ idxs, i < result.length) → idxs.Pairwise (· ≠ ·) →
      (∃ i ∈ idxs, ∃ nm, result.get? i = some nm ∧ values nm = none) →
      ∃ nm, substLoop values idxs result = .missingValue nm ∧ values nm = none ∧
        ∃ i ∈ idxs, result.get? i = some nm := by
  intro idxs
  induction idxs with
  | nil => intro result _ _ hw; simp at hw
  | cons idx rest ih =>
    intro result hb hp hw
    obtain ⟨nm0, hnm0⟩ := get?_exists_of_lt (hb idx (by simp))
    obtain ⟨hphead, hptail⟩ := List.pairwise_cons.mp hp
    cases hv0 : values nm0 with
    | none =>
      exact ⟨nm0, by simp only [substLoop, hnm0, hv0], hv0, idx, by simp, hnm0⟩
    | some v =>
      obtain ⟨i, hi, nm, hget, hvnone⟩ := hw
      have hir : i ∈ rest := by
        rcases List.mem_cons.mp hi with rfl | hir
        · rw [hnm0] at hget
          cases hget
          rw [hv0] at hvnone
          cases hvnone
        · exact hir
      have hbnd : ∀ j ∈ rest, j < (result.set idx v).length := fun j hj => by
        rw [List.length_set]; exact hb j (List.mem_cons_of_mem _ hj)
      have hwit : ∃ j ∈ rest, ∃ nm', (result.set idx v).get? j = some nm' ∧ values nm' = none :=
        ⟨i, hir, nm, by rw [List.get?_set_ne v result (hphead i hir)]; exact hget, hvnone⟩
      obtain ⟨nm', h1, h2, j, hj, h3⟩ := ih (result.set idx v) hbnd hptail hwit
      rw [List.get?_set_ne v result (hphead j hj)] at h3
      exact ⟨nm', by simp only [substLoop, hnm0, hv0]; exact h1, h2, j,
        List.mem_cons_of_mem _ hj, h3⟩

theorem substLoop_agree (v1 v2 : List Char → Option (List Char)) :
    ∀ (idxs : List Nat) (result : List (List Char)),
      idxs.Pairwise (· ≠ ·) →
      (∀ i ∈ idxs, ∀ nm, result.get? i = some nm → v1 nm = v2 nm) →
      substLoop v1 idxs result = substLoop v2 idxs result := by
  intro idxs
  induction idxs with
  | nil => intro result _ _; rfl
  | cons idx rest ih =>
    intro result hp ha
    obtain ⟨hphead, hptail⟩ := List.pairwise_cons.mp hp
    cases hg : result.get? idx with
    | none => simp only [substLoop, hg]
    | some nm =>
      have heq : v1 nm = v2 nm := ha idx (by simp) nm hg
      cases hv1 : v1 nm with
      | none => simp only [substLoop, hg, hv1, ← heq]
      | some v =>
        simp only [substLoop, hg, hv1, ← heq]
        exact ih (result.set idx v) hptail fun i hi nm' hnm' => by
          rw [List.get?_set_ne v result (hphead i hi)] at hnm'
          exact ha i (List.mem_cons_of_mem _ hi) nm' hnm'

/-! ## Association-list lemmas -/

theorem lookupParam_append (m1 m2 : List (List Char × Param)) (n : List Char) :
    lookupParam (m1 ++ m2) n = (lookupParam m1 n).or (lookupParam m2 n) := by
  induction m1 with
  | nil => rfl
  | cons kv rest ih =>
    obtain ⟨k, v⟩ := kv
    by_cases hk : k = n
    · simp only [List.cons_append, lookupParam, if_pos hk, Option.or]
    · simp only [List.cons_append, lookupParam, if_neg hk]
      exact ih

theorem lookupParam_isSome_iff (m : List (List Char × Param)) (n : List Char) :
    (lookupParam m n).isSome = true ↔ n ∈ m.map Prod.fst := by
  induction m with
  | nil =>
    constructor
    · intro h; exact absurd h (by simp [lookupParam])
    · intro h; exact absurd h (by simp)
  | cons kv rest ih =>
    obtain ⟨k, v⟩ := kv
    by_cases hk : k = n
    · subst hk
      simp [lookupParam]
    · simp only [lookupParam, if_neg hk, List.map_cons, List.mem_cons]
      rw [ih]
      exact ⟨fun h => Or.inr h, fun h => h.resolve_left fun h' => hk h'.symm⟩

/-! ## Parse-loop invariants -/

/-- Invariant maintained by `parseLoop` over its accumulated state: slot
indices are in bounds and strictly increasing, every slot index holds a
name registered in the parameter map, the keys of the map are exactly the
recorded order list, and every map entry has its key as its `Param.name`. -/
def LoopInv (segs : List (List Char)) (idxs : List Nat)
    (m : List (List Char × Param)) (o : List (List Char)) : Prop :=
  (∀ i ∈ idxs, i < segs.length) ∧
  idxs.Pairwise (· < ·) ∧
  (∀ i ∈ idxs, ∃ nm, segs.get? i = some nm ∧ (lookupParam m nm).isSome = true) ∧
  (∀ n, (lookupParam m n).isSome = true ↔ n ∈ o) ∧
  (∀ n p, lookupParam m n = some p → p.name = n)

theorem segs1_cases (segs : List (List Char)) (pre : List Char) :
    ((if pre.isEmpty then segs else segs ++ [pre]) = segs ∧ pre = []) ∨
      (if pre.isEmpty then segs else segs ++ [pre]) = segs ++ [pre] := by
  by_cases h : pre.isEmpty
  · left; exact ⟨by rw [if_pos h], List.isEmpty_iff.mp h⟩
  · right; rw [if_neg h]

theorem segs1_length_le {segs segs1 : List (List Char)} {pre : List Char}
    (h : segs1 = segs ∨ segs1 = segs ++ [pre]) : segs.length ≤ segs1.length := by
  rcases h with rfl | rfl
  · exact le_rfl
  · simp

theorem segs1_get?_eq {segs segs1 : List (List Char)} {pre : List Char} {i : Nat}
    (h : segs1 = segs ∨ segs1 = segs ++ [pre]) (hi : i < segs.length) :
    segs1.get? i = segs.get? i := by
  rcases h with rfl | rfl
  · rfl
  · exact List.get?_append hi

theorem loopInv_step (segs segs1 : List (List Char)) (idxs : List Nat)
    (pre nm : List Char)
    (hs1 : segs1 = segs ∨ segs1 = segs ++ [pre])
    (hb : ∀ i ∈ idxs, i < segs.length)
    (hp : idxs.Pairwise (· < ·)) :
    (∀ i ∈ idxs ++ [(segs1 ++ [nm]).length - 1], i < (segs1 ++ [nm]).length) ∧
    (idxs ++ [(segs1 ++ [nm]).length - 1]).Pairwise (· < ·) ∧
    (segs1 ++ [nm]).get? segs1.length = some nm ∧
    (∀ i ∈ idxs, (segs1 ++ [nm]).get? i = segs.get? i) := by
  have hlen : segs.length ≤ segs1.length := segs1_length_le hs1
  refine ⟨?_, ?_, ?_, ?_⟩
  · intro i hi
    rcases List.mem_append.mp hi with hi | hi
    · have := hb i hi
      simp only [List.length_append, List.length_cons, List.length_nil]
      omega
    · simp only [List.length_append, List.length_cons, List.length_nil,
        List.mem_singleton] at hi ⊢
      omega
  · rw [List.pairwise_append]
    refine ⟨hp, by simp, ?_⟩
    intro a ha b hb'
    simp only [List.length_append, List.length_cons, List.length_nil,
      List.mem_singleton] at hb'
    have := hb a ha
    omega
  · exact List.get?_concat_length segs1 nm
  · intro i hi
    have hilt : i < segs.length := hb i hi
    rw [List.get?_append (by omega)]
    exact segs1_get?_eq hs1 hilt

theorem parseLoop_inv :
    ∀ (chunks : List (List Char × List Char)) (segs : List (List Char)) (idxs : List Nat)
      (m : List (List Char × Param)) (o : List (List Char))
      (segs' : List (List Char)) (idxs' : List Nat) (m' : List (List Char × Param))
      (o' : List (List Char)),
      parseLoop chunks segs idxs m o = .ok (segs', idxs', m', o') →
      LoopInv segs idxs m o → LoopInv segs' idxs' m' o' := by
  intro chunks
  induction chunks with
  | nil =>
    intro segs idxs m o segs' idxs' m' o' h inv
    simp only [parseLoop, Except.ok.injEq, Prod.mk.injEq] at h
    obtain ⟨h1, h2, h3, h4⟩ := h
    subst h1; subst h2; subst h3; subst h4
    exact inv
  | cons chunk rest ih =>
    intro segs idxs m o segs' idxs' m' o' h inv
    obtain ⟨pre, body⟩ := chunk
    obtain ⟨hb, hp, hslot, hko, hnk⟩ := inv
    simp only [parseLoop] at h
    have hs1 := (segs1_cases segs pre).imp And.left id
    set segs1 := if pre.isEmpty then segs else segs ++ [pre] with hsegs1
    set nm := (extractParamNameAndDefaults body).1 with hnm
    obtain ⟨hb2, hp2, hgetL, hgetOld⟩ := loopInv_step segs segs1 idxs pre nm hs1 hb hp
    cases hl : lookupParam m nm with
    | some p0 =>
      rw [hl] at h
      by_cases hlen2 : (extractParamNameAndDefaults body).2.length > 1
      · rw [if_pos hlen2] at h
        exact absurd h (by simp)
      · rw [if_neg hlen2] at h
        refine ih _ _ _ _ _ _ _ _ h ⟨hb2, hp2, ?_, hko, hnk⟩
        intro i hi
        rcases List.mem_append.mp hi with hi | hi
        · obtain ⟨nm', hget', hsome'⟩ := hslot i hi
          exact ⟨nm', by rw [hgetOld i hi]; exact hget', hsome'⟩
        · simp at hi
          subst hi
          exact ⟨nm, hgetL, by rw [hl]; rfl⟩
    | none =>
      rw [hl] at h
      refine ih _ _ _ _ _ _ _ _ h ⟨hb2, hp2, ?_, ?_, ?_⟩
      · intro i hi
        rcases List.mem_append.mp hi with hi | hi
        · obtain ⟨nm', hget', hsome'⟩ := hslot i hi
          refine ⟨nm', by rw [hgetOld i hi]; exact hget', ?_⟩
          rw [lookupParam_append]
          obtain ⟨p', hp'⟩ := Option.isSome_iff_exists.mp hsome'
          rw [hp']
          rfl
        · simp at hi
          subst hi
          refine ⟨nm, hgetL, ?_⟩
          rw [lookupParam_append, hl]
          simp [lookupParam]
      · intro n
        rw [lookupParam_append]
        cases hmn : lookupParam m n with
        | some p' =>
          simp only [Option.or]
          constructor
          · intro _
            exact List.mem_append_left _ ((hko n).mp (by rw [hmn]; rfl))
          · intro _; rfl
        | none =>
          simp only [Option.or]
          constructor
          · intro hsing
            rcases Option.isSome_iff_exists.mp hsing with ⟨p', hp'⟩
            simp only [lookupParam] at hp'
            by_cases hkn : nm = n
            · exact List.mem_append_right _ (by simp [hkn])
            · rw [if_neg hkn] at hp'
              exact absurd hp' (by simp [lookupParam])
          · intro hmem
            rcases List.mem_append.mp hmem with hmem | hmem
            · exact absurd ((hko n).mpr hmem) (by rw [hmn]; simp)
            · simp at hmem
              subst hmem
              simp [lookupParam]
      · intro n p hlook
        rw [lookupParam_append] at hlook
        cases hmn : lookupParam m n with
        | some p' =>
          rw [hmn] at hlook
          simp only [Option.or] at hlook
          injection hlook with h'
          subst h'
          exact hnk n p' hmn
        | none =>
          rw [hmn] at hlook
          simp only [Option.or, lookupParam] at hlook
          by_cases hkn : nm = n
          · rw [if_pos hkn] at hlook
            injection hlook with h'
            subst h'
            exact hkn
          · rw [if_neg hkn] at hlook
            exact absurd hlook (by simp [lookupParam])

theorem uniqueFirstAux_congr :
    ∀ (l : List (List Char × List (List Char))) (s1 s2 : List (List Char)),
      (∀ x, x ∈ s1 ↔ x ∈ s2) → uniqueFirstAux s1 l = uniqueFirstAux s2 l := by
  intro l
  induction l with
  | nil => intros; rfl
  | cons nd rest ih =>
    intro s1 s2 hs
    obtain ⟨n, d⟩ := nd
    by_cases hn : n ∈ s1
    · rw [uniqueFirstAux, uniqueFirstAux, if_pos hn, if_pos ((hs n).mp hn)]
      exact ih s1 s2 hs
    · rw [uniqueFirstAux, uniqueFirstAux, if_neg hn, if_neg (fun h => hn ((hs n).mpr h))]
      rw [ih (n :: s1) (n :: s2) (fun x => by simp [hs x])]

theorem parseLoop_rel :
    ∀ (chunks : List (List Char × List Char)) (segs : List (List Char)) (idxs : List Nat)
      (m : List (List Char × Param)) (o : List (List Char))
      (segs' : List (List Char)) (idxs' : List Nat) (m' : List (List Char × Param))
      (o' : List (List Char)),
      parseLoop chunks segs idxs m o = .ok (segs', idxs', m', o') →
      idxs'.length = idxs.length + chunks.length ∧
      segs'.flatten = segs.flatten ++
        (chunks.map (fun pb => pb.1 ++ (extractParamNameAndDefaults pb.2).1)).flatten ∧
      m' = m ++ (uniqueFirstAux (m.map Prod.fst)
        (chunks.map (fun pb => extractParamNameAndDefaults pb.2))).map
          (fun nd => (nd.1, ⟨nd.1, nd.2⟩)) ∧
      o' = o ++ (uniqueFirstAux (m.map Prod.fst)
        (chunks.map (fun pb => extractParamNameAndDefaults pb.2))).map Prod.fst := by
  intro chunks
  induction chunks with
  | nil =>
    intro segs idxs m o segs' idxs' m' o' h
    simp only [parseLoop, Except.ok.injEq, Prod.mk.injEq] at h
    obtain ⟨h1, h2, h3, h4⟩ := h
    subst h1; subst h2; subst h3; subst h4
    simp [uniqueFirstAux]
  | cons chunk rest ih =>
    intro segs idxs m o segs' idxs' m' o' h
    obtain ⟨pre, body⟩ := chunk
    simp only [parseLoop] at h
    have hs1 := segs1_cases segs pre
    set segs1 := if pre.isEmpty then segs else segs ++ [pre] with hsegs1
    set nd := extractParamNameAndDefaults body with hnd
    have hflat1 : (segs1 ++ [nd.1]).flatten = segs.flatten ++ (pre ++ nd.1) := by
      rcases hs1 with ⟨h1, hpre0⟩ | h1
      · rw [h1, hpre0]
        simp
      · rw [h1]
        simp
    cases hl : lookupParam m nd.1 with
    | some p0 =>
      rw [hl] at h
      by_cases hlen2 : nd.2.length > 1
      · rw [if_pos hlen2] at h
        exact absurd h (by simp)
      · rw [if_neg hlen2] at h
        obtain ⟨ih1, ih2, ih3, ih4⟩ := ih _ _ _ _ _ _ _ _ h
        have hmem : nd.1 ∈ m.map Prod.fst :=
          (lookupParam_isSome_iff m nd.1).mp (by rw [hl]; rfl)
        have huf : uniqueFirstAux (m.map Prod.fst) (nd :: rest.map (fun pb =>
            extractParamNameAndDefaults pb.2)) = uniqueFirstAux (m.map Prod.fst)
            (rest.map (fun pb => extractParamNameAndDefaults pb.2)) := by
          rw [uniqueFirstAux, if_pos hmem]
        refine ⟨?_, ?_, ?_, ?_⟩
        · rw [ih1]
          simp only [List.length_append, List.length_cons, List.length_nil,
            List.length_map]
          omega
        · rw [ih2, hflat1]
          simp [List.append_assoc]
        · rw [ih3, List.map_cons, huf]
        · rw [ih4, List.map_cons, huf]
    | none =>
      rw [hl] at h
      obtain ⟨ih1, ih2, ih3, ih4⟩ := ih _ _ _ _ _ _ _ _ h
      have hnmem : nd.1 ∉ m.map Prod.fst := fun hmem => by
        have h2 := (lookupParam_isSome_iff m nd.1).mpr hmem
        rw [hl] at h2
        simp at h2
      have hkeys2 : (m ++ [(nd.1, (⟨nd.1, nd.2⟩ : Param))]).map Prod.fst =
          m.map Prod.fst ++ [nd.1] := by simp
      have hcongr : uniqueFirstAux (m.map Prod.fst ++ [nd.1])
          (rest.map (fun pb => extractParamNameAndDefaults pb.2)) =
          uniqueFirstAux (nd.1 :: m.map Prod.fst)
          (rest.map (fun pb => extractParamNameAndDefaults pb.2)) :=
        uniqueFirstAux_congr _ _ _ (fun x => by simp; tauto)
      have huf : uniqueFirstAux (m.map Prod.fst) (nd :: rest.map (fun pb =>
          extractParamNameAndDefaults pb.2)) = nd :: uniqueFirstAux (nd.1 :: m.map Prod.fst)
          (rest.map (fun pb => extractParamNameAndDefaults pb.2)) := by
        rw [uniqueFirstAux, if_neg hnmem]
      refine ⟨?_, ?_, ?_, ?_⟩
      · rw [ih1]
        simp only [List.length_append, List.length_cons, List.length_nil,
          List.length_map]
        omega
      · rw [ih2, hflat1]
        simp [List.append_assoc]
      · rw [ih3, hkeys2, hcongr, List.map_cons, huf, List.map_cons]
        simp [List.append_assoc]
      · rw [ih4, hkeys2, hcongr, List.map_cons, huf, List.map_cons]
        simp [List.append_assoc]

theorem uniqueFirstAux_keys :
    ∀ (l : List (List Char × List (List Char))) (seen : List (List Char)),
      ((uniqueFirstAux seen l).map Prod.fst).Nodup ∧
      ∀ n ∈ (uniqueFirstAux seen l).map Prod.fst, n ∉ seen := by
  intro l
  induction l with
  | nil => intro seen; exact ⟨List.nodup_nil, by simp [uniqueFirstAux]⟩
  | cons nd rest ih =>
    intro seen
    obtain ⟨n, d⟩ := nd
    by_cases hn : n ∈ seen
    · rw [uniqueFirstAux, if_pos hn]
      exact ih seen
    · rw [uniqueFirstAux, if_neg hn]
      obtain ⟨ihn, ihs⟩ := ih (n :: seen)
      constructor
      · simp only [List.map_cons]
        refine List.nodup_cons.mpr ⟨fun hmem => ?_, ihn⟩
        exact (ihs n hmem) (List.mem_cons_self n seen)
      · intro x hx
        simp only [List.map_cons, List.mem_cons] at hx
        rcases hx with rfl | hx
        · exact hn
        · exact fun hxs => (ihs x hx) (List.mem_cons_of_mem _ hxs)

theorem lookup_keys_filterMap :
    ∀ (l : List (List Char × Param)), ((l.map Prod.fst).Nodup) →
      (l.map Prod.fst).filterMap (lookupParam l) = l.map Prod.snd := by
  intro l
  induction l with
  | nil => intro _; rfl
  | cons kv rest ih =>
    intro hnd
    obtain ⟨k, v⟩ := kv
    simp only [List.map_cons] at hnd ⊢
    obtain ⟨hk, hrest⟩ := List.nodup_cons.mp hnd
    have h1 : lookupParam ((k, v) :: rest) k = some v := by simp [lookupParam]
    rw [List.filterMap_cons, h1]
    have h2 : (rest.map Prod.fst).filterMap (lookupParam ((k, v) :: rest)) =
        (rest.map Prod.fst).filterMap (lookupParam rest) := by
      refine List.filterMap_congr fun x hx => ?_
      have hne : k ≠ x := fun he => hk (he ▸ hx)
      simp [lookupParam, hne]
    rw [h2, ih hrest]

/-! ## Marker-grammar lemmas -/

theorem backtrack_le (t : List Char) : ∀ (m k : Nat), backtrack t m = some k → k ≤ m := by
  intro m
  induction m with
  | zero =>
    intro k h
    unfold backtrack at h
    split at h
    · injection h with h'; omega
    · exact absurd h (by simp)
  | succ m ih =>
    intro k h
    unfold backtrack at h
    split at h
    · injection h with h'; omega
    · exact Nat.le_succ_of_le (ih k h)

theorem backtrack_checkAt (t : List Char) :
    ∀ (m k : Nat), backtrack t m = some k → checkAt t k = true := by
  intro m
  induction m with
  | zero =>
    intro k h
    unfold backtrack at h
    split at h
    · next hc => injection h with h'; subst h'; exact hc
    · exact absurd h (by simp)
  | succ m ih =>
    intro k h
    unfold backtrack at h
    split at h
    · next hc => injection h with h'; subst h'; exact hc
    · exact ih k h

theorem backtrack_of_checkAt {t : List Char} {m : Nat} (h : checkAt t m = true) :
    backtrack t m = some m := by
  cases m with
  | zero => unfold backtrack; rw [if_pos h]
  | succ m => unfold backtrack; rw [if_pos h]

theorem checkAt_spec {t : List Char} {k : Nat} (h : checkAt t k = true) :
    ∃ c2 r, t.drop k = c2 :: '>' :: r ∧ isSpaceRE c2 = false := by
  unfold checkAt at h
  rcases hd : t.drop k with _ | ⟨c2, _ | ⟨g, r⟩⟩ <;> rw [hd] at h
  · exact absurd h (by simp)
  · exact absurd h (by simp)
  · simp only [Bool.and_eq_true, Bool.not_eq_true', beq_iff_eq] at h
    obtain ⟨h1, h2⟩ := h
    exact ⟨c2, r, by rw [h2], h1⟩

theorem take_succ_of_drop :
    ∀ (t : List Char) (k : Nat) (c2 : Char) (r : List Char),
      t.drop k = c2 :: r → t.take (k + 1) = t.take k ++ [c2] := by
  intro t
  induction t with
  | nil => intro k c2 r h; simp at h
  | cons a t' ih =>
    intro k c2 r h
    cases k with
    | zero =>
      simp only [List.drop_zero] at h
      injection h with h1 h2
      subst h1
      simp
    | succ j =>
      simp only [List.drop_succ_cons] at h
      simp only [List.take_succ_cons]
      rw [ih j c2 r h, List.cons_append]

theorem mem_take_runLen :
    ∀ (t : List Char) (k : Nat), k ≤ runLen t → ∀ c ∈ t.take k, isAngle c = false := by
  intro t
  induction t with
  | nil => intro k _ c hc; simp at hc
  | cons a t' ih =>
    intro k hk c hc
    cases ha : isAngle a with
    | true =>
      have h0 : runLen (a :: t') = 0 := by
        simp [runLen, List.takeWhile_cons, ha]
      rw [h0] at hk
      have : k = 0 := Nat.le_zero.mp hk
      subst this
      simp at hc
    | false =>
      have h1 : runLen (a :: t') = runLen t' + 1 := by
        simp [runLen, List.takeWhile_cons, ha]
      cases k with
      | zero => simp at hc
      | succ j =>
        rw [h1] at hk
        rw [List.take_succ_cons] at hc
        rcases List.mem_cons.mp hc with rfl | hc'
        · exact ha
        · exact ih j (by omega) c hc'

theorem matchAt_body_shape {s body rest : List Char}
    (h : matchAt s = some (body, rest)) : BodyShape body := by
  rw [matchAt.eq_def] at h
  split at h
  · next c1 t =>
    split at h
    · exact absurd h (by simp)
    · next hsp =>
      split at h
      · next k hk =>
        simp only [Option.some.injEq, Prod.mk.injEq] at h
        obtain ⟨hbody, -⟩ := h
        have hkle := backtrack_le t (runLen t) k hk
        have hch := backtrack_checkAt t (runLen t) k hk
        obtain ⟨c2, r, hdrop, hc2⟩ := checkAt_spec hch
        have htake := take_succ_of_drop t k c2 _ hdrop
        refine ⟨c1, t.take k, c2, ?_, ?_, hc2, mem_take_runLen t k hkle⟩
        · rw [← hbody, htake, List.cons_append]
        · exact Bool.eq_false_iff.mpr hsp
      · exact absurd h (by simp)
  · exact absurd h (by simp)

theorem takeWhile_append_all {p : Char → Bool} :
    ∀ (mid rest : List Char), (∀ c ∈ mid, p c = true) →
      (mid ++ rest).takeWhile p = mid ++ rest.takeWhile p := by
  intro mid
  induction mid with
  | nil => intro rest _; rfl
  | cons a mid' ih =>
    intro rest hall
    have ha : p a = true := hall a (by simp)
    simp only [List.cons_append, List.takeWhile_cons, ha, if_true]
    rw [ih rest fun c hc => hall c (List.mem_cons_of_mem _ hc)]

theorem matchAt_exact {body : List Char} (h : BodyShape body) :
    matchAt ('<' :: (body ++ ['>'])) = some (body, []) := by
  obtain ⟨c1, mid, c2, rfl, hc1, hc2, hmid⟩ := h
  have hre : (c1 :: (mid ++ [c2])) ++ ['>'] = c1 :: (mid ++ [c2, '>']) := by
    simp
  show matchAt ('<' :: (c1 :: (mid ++ [c2]) ++ ['>'])) = _
  rw [hre]
  have hmid' : ∀ c ∈ mid, (fun c => !isAngle c) c = true := by
    intro c hc
    simp [hmid c hc]
  have hdrop1 : (mid ++ [c2, '>']).drop mid.length = [c2, '>'] := List.drop_left mid _
  have hcheck1 : checkAt (mid ++ [c2, '>']) mid.length = true := by
    unfold checkAt
    rw [hdrop1]
    simp [hc2]
  have hdrop2 : (mid ++ [c2, '>']).drop (mid.length + 1) = ['>'] := by
    rw [List.drop_append]
    rfl
  have hcheck2 : checkAt (mid ++ [c2, '>']) (mid.length + 1) = false := by
    unfold checkAt
    rw [hdrop2]
  have hbt : backtrack (mid ++ [c2, '>']) (runLen (mid ++ [c2, '>'])) = some mid.length := by
    cases hc2a : isAngle c2 with
    | true =>
      have hrl : runLen (mid ++ [c2, '>']) = mid.length := by
        unfold runLen
        rw [takeWhile_append_all mid _ hmid']
        simp [List.takeWhile_cons, hc2a]
      rw [hrl]
      exact backtrack_of_checkAt hcheck1
    | false =>
      have hrl : runLen (mid ++ [c2, '>']) = mid.length + 1 := by
        unfold runLen
        rw [takeWhile_append_all mid _ hmid']
        simp only [List.takeWhile_cons, hc2a, Bool.not_false, if_true,
          List.length_append, List.length_cons]
        have : isAngle '>' = true := by decide
        simp [List.takeWhile_cons, this]
      rw [hrl]
      unfold backtrack
      rw [if_neg (by rw [hcheck2]; exact fun hc => Bool.noConfusion hc)]
      exact backtrack_of_checkAt hcheck1
  have htak : (mid ++ [c2, '>']).take (mid.length + 1) = mid ++ [c2] := by
    rw [List.take_append]
    rfl
  have hdr : (mid ++ [c2, '>']).drop (mid.length + 2) = [] := by
    rw [List.drop_append]
    rfl
  show (if isSpaceRE c1 then none else
    match backtrack (mid ++ [c2, '>']) (runLen (mid ++ [c2, '>'])) with
    | some k => some (c1 :: (mid ++ [c2, '>']).take (k + 1), (mid ++ [c2, '>']).drop (k + 2))
    | none => none) = some ((c1 :: mid) ++ [c2], [])
  rw [if_neg (by rw [hc1]; exact fun hc => Bool.noConfusion hc), hbt]
  show some (c1 :: (mid ++ [c2, '>']).take (mid.length + 1),
    (mid ++ [c2, '>']).drop (mid.length + 2)) = some ((c1 :: mid) ++ [c2], [])
  rw [htak, hdr, List.cons_append]

theorem scan_body_shape_aux :
    ∀ (n : Nat) (s : List Char), s.length ≤ n →
      ∀ pb ∈ (scan s).1, BodyShape pb.2 := by
  intro n
  induction n with
  | zero =>
    intro s hs pb hpb
    have : s = [] := List.length_eq_zero.mp (Nat.le_zero.mp hs)
    subst this
    simp [scan_nil] at hpb
  | succ n ih =>
    intro s hs pb hpb
    cases s with
    | nil => simp [scan_nil] at hpb
    | cons c cs =>
      simp only [List.length_cons] at hs
      cases hm : matchAt (c :: cs) with
      | some br =>
        obtain ⟨body, rest⟩ := br
        rw [scan_match hm] at hpb
        rcases List.mem_cons.mp hpb with rfl | hpb'
        · exact matchAt_body_shape hm
        · have hlt := matchAt_rest_lt hm
          simp only [List.length_cons] at hlt
          exact ih rest (by omega) pb hpb'
      | none =>
        cases h2 : (scan cs).1 with
        | nil =>
          rw [scan_shift_nil hm h2] at hpb
          simp at hpb
        | cons pb0 ms =>
          obtain ⟨pre0, b0⟩ := pb0
          rw [scan_shift_cons hm h2] at hpb
          rcases List.mem_cons.mp hpb with rfl | hpb'
          · have hmem : ((pre0, b0) : List Char × List Char) ∈ (scan cs).1 := by
              rw [h2]; exact List.mem_cons_self _ _
            exact ih cs (by omega) (pre0, b0) hmem
          · have hmem : pb ∈ (scan cs).1 := by
              rw [h2]; exact List.mem_cons_of_mem _ hpb'
            exact ih cs (by omega) pb hmem

theorem scan_body_shape {s : List Char} :
    ∀ pb ∈ (scan s).1, BodyShape pb.2 :=
  scan_body_shape_aux s.length s le_rfl

/-! ## `ParseSpell` result characterisation -/

theorem ParseSpell_ok_cases {s : List Char} {ss : SpellSegments}
    (h : ParseSpell s = .ok ss) :
    ((scan s).1 = [] ∧ ss = ⟨[s], [], []⟩) ∨
    ((scan s).1 ≠ [] ∧ ∃ segs idxs m o,
      parseLoop (scan s).1 [] [] [] [] = .ok (segs, idxs, m, o) ∧
      ss = ⟨if (scan s).2.isEmpty then segs else segs ++ [(scan s).2], idxs,
        o.filterMap (lookupParam m)⟩) := by
  unfold ParseSpell at h
  by_cases he : (scan s).1.isEmpty
  · left
    rw [if_pos he] at h
    refine ⟨List.isEmpty_iff.mp he, ?_⟩
    injection h with h'
    exact h'.symm
  · right
    rw [if_neg he] at h
    refine ⟨fun hnil => he (List.isEmpty_iff.mpr hnil), ?_⟩
    cases hp : parseLoop (scan s).1 [] [] [] [] with
    | error e =>
      rw [hp] at h
      exact absurd h (by simp)
    | ok r =>
      obtain ⟨segs, idxs, m, o⟩ := r
      rw [hp] at h
      refine ⟨segs, idxs, m, o, rfl, ?_⟩
      injection h with h'
      exact h'.symm

theorem LoopInv_init : LoopInv [] [] [] [] :=
  ⟨by simp, by simp, by simp, by simp [lookupParam],
    fun n p h => absurd h (by simp [lookupParam])⟩

theorem ParseSpell_inv {s : List Char} {ss : SpellSegments} (h : ParseSpell s = .ok ss) :
    (∀ i ∈ ss.paramIndices, i < ss.segments.length) ∧
    ss.paramIndices.Pairwise (· < ·) ∧
    (∀ i ∈ ss.paramIndices, ∃ p ∈ ss.params, ss.segments.get? i = some p.name) := by
  rcases ParseSpell_ok_cases h with ⟨hnil, rfl⟩ | ⟨hne, segs, idxs, m, o, hp, rfl⟩
  · exact ⟨by simp, by simp, by simp⟩
  · obtain ⟨hb, hpw, hslot, hko, hnk⟩ := parseLoop_inv _ _ _ _ _ _ _ _ _ hp LoopInv_init
    have hext : ∀ i, i < segs.length →
        (if (scan s).2.isEmpty then segs else segs ++ [(scan s).2]).get? i =
          segs.get? i := by
      intro i hi
      by_cases ht : (scan s).2.isEmpty
      · rw [if_pos ht]
      · rw [if_neg ht]
        exact List.get?_append hi
    refine ⟨?_, hpw, ?_⟩
    · intro i hi
      have := hb i hi
      show i < (if (scan s).2.isEmpty then segs else segs ++ [(scan s).2]).length
      by_cases ht : (scan s).2.isEmpty
      · rw [if_pos ht]; exact this
      · rw [if_neg ht]; simp; omega
    · intro i hi
      obtain ⟨nm, hget, hsome⟩ := hslot i hi
      obtain ⟨p, hp'⟩ := Option.isSome_iff_exists.mp hsome
      refine ⟨p, List.mem_filterMap.mpr ⟨nm, (hko nm).mp hsome, hp'⟩, ?_⟩
      show (if (scan s).2.isEmpty then segs else segs ++ [(scan s).2]).get? i = _
      rw [hext i (hb i hi), hget, hnk nm p hp']

theorem ParseSpell_params {s : List Char} {ss : SpellSegments} (h : ParseSpell s = .ok ss) :
    ss.paramIndices.length = (scan s).1.length ∧
    ss.params = (uniqueFirst ((scan s).1.map (fun pb =>
      extractParamNameAndDefaults pb.2))).map (fun nd => ⟨nd.1, nd.2⟩) := by
  rcases ParseSpell_ok_cases h with ⟨hnil, rfl⟩ | ⟨hne, segs, idxs, m, o, hp, rfl⟩
  · simp [hnil, uniqueFirst, uniqueFirstAux]
  · obtain ⟨h1, h2, h3, h4⟩ := parseLoop_rel _ _ _ _ _ _ _ _ _ hp
    rw [List.nil_append] at h3 h4
    constructor
    · show idxs.length = _
      simpa using h1
    · show o.filterMap (lookupParam m) = _
      have hkeys : m.map Prod.fst = (uniqueFirstAux ((List.nil (α := List Char × Param)).map
          Prod.fst) ((scan s).1.map (fun pb => extractParamNameAndDefaults pb.2))).map
          Prod.fst := by
        rw [h3, List.map_map]
        rfl
      have hkeys' : o = m.map Prod.fst := by
        rw [h4, hkeys]
      have hnodup : (m.map Prod.fst).Nodup := by
        rw [hkeys]
        exact (uniqueFirstAux_keys _ _).1
      rw [hkeys', lookup_keys_filterMap m hnodup, h3, List.map_map]
      rfl

theorem ParseSpell_flatten {s : List Char} {ss : SpellSegments}
    (h : ParseSpell s = .ok ss) : ss.segments.flatten = replaceMarkers s := by
  rcases ParseSpell_ok_cases h with ⟨hnil, rfl⟩ | ⟨hne, segs, idxs, m, o, hp, rfl⟩
  · show List.flatten [s] = _
    rw [replaceMarkers, hnil, scan_no_match_trail hnil]
    simp
  · obtain ⟨-, h2, -, -⟩ := parseLoop_rel _ _ _ _ _ _ _ _ _ hp
    rw [List.flatten_nil, List.nil_append] at h2
    rw [replaceMarkers]
    show (if (scan s).2.isEmpty then segs else segs ++ [(scan s).2]).flatten = _
    by_cases ht : (scan s).2.isEmpty
    · rw [if_pos ht, h2, List.isEmpty_iff.mp ht]
      simp
    · rw [if_neg ht, List.flatten_append, h2]
      simp

/-! ## Trimming and splitting lemmas -/

theorem dropWhile_head_false {p : Char → Bool} :
    ∀ (l : List Char) (c : Char) (r : List Char),
      l.dropWhile p = c :: r → p c = false := by
  intro l
  induction l with
  | nil => intro c r h; simp at h
  | cons a l' ih =>
    intro c r h
    rw [List.dropWhile_cons] at h
    split at h
    · exact ih c r h
    · next hpa =>
      injection h with h1 _
      subst h1
      exact Bool.eq_false_iff.mpr hpa

theorem trimSpace_head {l : List Char} {c : Char}
    (h : (trimSpace l).head? = some c) : isGoSpace c = false := by
  unfold trimSpace at h
  rw [List.head?_reverse] at h
  set A := l.dropWhile isGoSpace with hA
  set B := A.reverse.dropWhile isGoSpace with hB
  have hBne : B ≠ [] := by
    intro hnil
    rw [hnil] at h
    simp at h
  obtain ⟨u, hu⟩ : B <:+ A.reverse := List.dropWhile_suffix isGoSpace
  have hlast : A.reverse.getLast? = some c := by
    rw [← hu, List.getLast?_append_of_ne_nil u hBne]
    exact h
  rw [List.getLast?_reverse] at hlast
  cases hAc : A with
  | nil => rw [hAc] at hlast; simp at hlast
  | cons a r =>
    rw [hAc] at hlast
    simp only [List.head?_cons, Option.some.injEq] at hlast
    subst hlast
    exact dropWhile_head_false l a r hAc

theorem trimSpace_last {l : List Char} {c : Char}
    (h : (trimSpace l).getLast? = some c) : isGoSpace c = false := by
  unfold trimSpace at h
  rw [List.getLast?_reverse] at h
  cases hBc : (l.dropWhile isGoSpace).reverse.dropWhile isGoSpace with
  | nil => rw [hBc] at h; simp at h
  | cons b r =>
    rw [hBc] at h
    simp only [List.head?_cons, Option.some.injEq] at h
    subst h
    exact dropWhile_head_false _ b r hBc

theorem splitChar_ne_nil (sep : Char) (l : List Char) : splitChar sep l ≠ [] := by
  cases l with
  | nil => simp [splitChar]
  | cons c cs =>
    simp only [splitChar]
    by_cases hc : c = sep
    · rw [if_pos hc]
      simp
    · rw [if_neg hc]
      cases splitChar sep cs with
      | nil => simp
      | cons h tl => simp

theorem joinSep_cons_cons (sep c : Char) (h : List Char) (tl : List (List Char)) :
    joinSep sep ((c :: h) :: tl) = c :: joinSep sep (h :: tl) := by
  cases tl <;> rfl

theorem splitChar_joinSep (sep : Char) :
    ∀ l : List Char, joinSep sep (splitChar sep l) = l := by
  intro l
  induction l with
  | nil => rfl
  | cons c cs ih =>
    by_cases hc : c = sep
    · subst hc
      simp only [splitChar, if_pos rfl]
      cases hr : splitChar c cs with
      | nil => exact absurd hr (splitChar_ne_nil c cs)
      | cons h tl =>
        rw [hr] at ih
        show joinSep c ([] :: h :: tl) = c :: cs
        show [] ++ c :: joinSep c (h :: tl) = c :: cs
        rw [List.nil_append, ih]
    · simp only [splitChar, if_neg hc]
      cases hr : splitChar sep cs with
      | nil => exact absurd hr (splitChar_ne_nil sep cs)
      | cons h tl =>
        rw [hr] at ih
        rw [joinSep_cons_cons, ih]

/-! ## Claim theorems (part 1) -/

/-- C1 (code bug): the spec, and the test suite of the repository itself
`TestParseSpell/error - on repeated parameter with defaults`, require
`ParseSpell "echo <name=World> and again <name=Everyone>"` to fail with the
duplicate-default error naming `name`.  The guard in the code is
`len(defaultValues) > 1`, so a repeated name redeclaring exactly one
default slips through: the parse succeeds, keeping the first default.
This theorem evaluates the code at that failing input. -/
theorem claim1_duplicate_single_default_accepted :
    ParseSpell ("echo <name=World> and again <name=Everyone>".toList) =
      .ok ⟨["echo ".toList, "name".toList, " and again ".toList, "name".toList], [1, 3],
        [⟨"name".toList, ["World".toList]⟩]⟩ := rfl

/-- C2 (counterexample): the regex `<([^\s][^<>]*[^<>\s]...)>` is in fact
`<([^\s][^<>]*[^\s])>`, whose body has at least two characters, so
`"<a>"` is NOT recognised as a parameter marker and stays one literal
segment with no parameters; and the first/last body character class is
`[^\s]`, not `[^<>]`, so a recognised body can contain `<` and `>`:
scanning `"<<ab>>"` captures the body `"<ab>"`. -/
theorem claim2_counterexample :
    ParseSpell ("<a>".toList) = .ok ⟨["<a>".toList], [], []⟩ ∧
    (scan ("<<ab>>".toList)).1.map Prod.snd = ["<ab>".toList] :=
  ⟨rfl, rfl⟩

/-- C3 (counterexample): default values are split on `;` but NOT trimmed:
`"<name=a; b>"` yields defaults `["a", " b"]`, keeping the space, not the
`["a", "b"]` the claim states. -/
theorem claim3_counterexample :
    ParseSpell ("<name=a; b>".toList) =
      .ok ⟨["name".toList], [0], [⟨"name".toList, ["a".toList, " b".toList]⟩]⟩ ∧
    " b".toList ≠ "b".toList :=
  ⟨rfl, by decide⟩

/-- C2 (amended): every marker the scanner recognises has a body of at
least two characters whose first and last characters are not (regex)
whitespace and whose interior characters are neither `<` nor `>` (the
first and last body characters themselves may be `<` or `>`); and
conversely a whole string of the form `<` ++ body ++ `>` with body of
that shape is recognised as a single parameter marker, parsed into the
extracted name with its defaults.  (The one-character
bodies of the original claim such as `"<a>"` are not markers, and recognised bodies can
contain `<` and `>` at their edges: see the counterexample.) -/
theorem claim2_marker_grammar :
    (∀ (s : List Char), ∀ pb ∈ (scan s).1, BodyShape pb.2) ∧
    (∀ body : List Char, BodyShape body →
      ParseSpell ('<' :: (body ++ ['>'])) =
        .ok ⟨[(extractParamNameAndDefaults body).1], [0],
          [⟨(extractParamNameAndDefaults body).1,
            (extractParamNameAndDefaults body).2⟩]⟩) := by
  refine ⟨fun s => scan_body_shape, fun body h => ?_⟩
  have hm := matchAt_exact h
  have hscan : scan ('<' :: (body ++ ['>'])) = ([([], body)], []) := by
    rw [scan_match hm]
    simp [scan_nil]
  simp only [ParseSpell, hscan]
  simp [parseLoop, lookupParam]

/-- Witness for C2 at the two-character body `"ab"`: `"<ab>"` parses to a
single parameter named `ab`, and the scan of `"x<ab>y"` recognises only
shaped bodies. -/
theorem claim2_witness :
    BodyShape ("ab".toList) ∧
    (∀ pb ∈ (scan ("x<ab>y".toList)).1, BodyShape pb.2) ∧
    ParseSpell ('<' :: ("ab".toList ++ ['>'])) =
      .ok ⟨[(extractParamNameAndDefaults ("ab".toList)).1], [0],
        [⟨(extractParamNameAndDefaults ("ab".toList)).1,
          (extractParamNameAndDefaults ("ab".toList)).2⟩]⟩ :=
  ⟨⟨'a', [], 'b', rfl, rfl, rfl, by simp⟩,
    claim2_marker_grammar.1 ("x<ab>y".toList),
    claim2_marker_grammar.2 ("ab".toList) ⟨'a', [], 'b', rfl, rfl, rfl, by simp⟩⟩

/-- C5: a string the scanner finds no marker in parses to a single literal
segment equal to the whole input with no parameters and no slot indices,
and reconstructing that result under any value mapping returns the input
unchanged with no error. -/
theorem claim5_no_marker_identity (s : List Char)
    (values : List Char → Option (List Char)) (h : (scan s).1 = []) :
    ParseSpell s = .ok ⟨[s], [], []⟩ ∧
    SpellSegments.Reconstruct ⟨[s], [], []⟩ values = .ok s := by
  constructor
  · unfold ParseSpell
    simp [h]
  · show substLoop values [] [s] = .ok s
    simp [substLoop]

/-- Witness for C5 at the concrete marker-free spell `"echo hello"`. -/
theorem claim5_witness :
    (scan ("echo hello".toList)).1 = [] ∧
    (ParseSpell ("echo hello".toList) = .ok ⟨["echo hello".toList], [], []⟩ ∧
      SpellSegments.Reconstruct ⟨["echo hello".toList], [], []⟩ (fun _ => none) =
        .ok ("echo hello".toList)) :=
  ⟨by decide, claim5_no_marker_identity ("echo hello".toList) (fun _ => none) (by decide)⟩

/-- C3 (amended): for every marker body, the recorded parameter name is
the part of the whole-trimmed body before the first `=`, trimmed again of
surrounding whitespace (so it never starts or ends with whitespace), and
the default values are exactly the `;`-split of the text after the first
`=` with NO individual trimming: joining the recorded defaults back with
`;` reproduces that text verbatim, whitespace included; an absent `=`
yields no defaults. -/
theorem claim3_name_trimmed_defaults_verbatim (body nm : List Char)
    (dv : List (List Char)) (h : extractParamNameAndDefaults body = (nm, dv)) :
    (∀ c, nm.head? = some c → isGoSpace c = false) ∧
    (∀ c, nm.getLast? = some c → isGoSpace c = false) ∧
    ((splitOnFirst '=' (trimSpace body)).2 = none → dv = []) ∧
    (∀ r, (splitOnFirst '=' (trimSpace body)).2 = some r →
      dv = splitChar ';' r ∧ joinSep ';' dv = r) := by
  simp only [extractParamNameAndDefaults, Prod.mk.injEq] at h
  obtain ⟨h1, h2⟩ := h
  refine ⟨?_, ?_, ?_, ?_⟩
  · intro c hc
    rw [← h1] at hc
    exact trimSpace_head hc
  · intro c hc
    rw [← h1] at hc
    exact trimSpace_last hc
  · intro hnone
    rw [← h2, hnone]
  · intro r hr
    have hdv : dv = splitChar ';' r := by rw [← h2, hr]
    exact ⟨hdv, by rw [hdv]; exact splitChar_joinSep ';' r⟩

/-- Witness for C3 (amended) at the marker body `"ab=x; y"`: the name is
`ab`, the defaults are the untrimmed `["x", " y"]`, and joining them with
`;` reproduces `"x; y"`. -/
theorem claim3_witness :
    extractParamNameAndDefaults ("ab=x; y".toList) =
      ("ab".toList, ["x".toList, " y".toList]) ∧
    (["x".toList, " y".toList] = splitChar ';' ("x; y".toList) ∧
      joinSep ';' ["x".toList, " y".toList] = "x; y".toList) :=
  ⟨rfl, (claim3_name_trimmed_defaults_verbatim ("ab=x; y".toList) _ _ rfl).2.2.2
    ("x; y".toList) rfl⟩

/-- C4: for a parsed segment sequence, if some slot index holds a
parameter name absent from the mapping then `Reconstruct` fails with a
`missingValue` error naming a slot parameter that is indeed absent,
producing no output string; conversely if the name at every slot is present
the reconstruction succeeds. -/
theorem claim4_missing_value (s : List Char) (ss : SpellSegments)
    (values : List Char → Option (List Char)) (h : ParseSpell s = .ok ss) :
    ((∀ i ∈ ss.paramIndices, ∀ nm, ss.segments.get? i = some nm →
        (values nm).isSome = true) →
      ∃ out, ss.Reconstruct values = .ok out) ∧
    ((∃ i ∈ ss.paramIndices, ∃ nm, ss.segments.get? i = some nm ∧ values nm = none) →
      ∃ nm, ss.Reconstruct values = .missingValue nm ∧ values nm = none ∧
        ∃ i ∈ ss.paramIndices, ss.segments.get? i = some nm) := by
  obtain ⟨hb, hpw, -⟩ := ParseSpell_inv h
  have hne : ss.paramIndices.Pairwise (· ≠ ·) :=
    hpw.imp fun hab => Nat.ne_of_lt hab
  exact ⟨fun hv => substLoop_ok values ss.paramIndices ss.segments hb hne hv,
    fun hw => substLoop_missing values ss.paramIndices ss.segments hb hne hw⟩

/-- Witness for C4 on `"cp <src> <dst>"`: with only `src` supplied the
reconstruction reports a missing value (for `dst`); with both supplied it
succeeds. -/
theorem claim4_witness :
    (ParseSpell ("cp <src> <dst>".toList) =
      .ok ⟨["cp ".toList, "src".toList, " ".toList, "dst".toList], [1, 3],
        [⟨"src".toList, []⟩, ⟨"dst".toList, []⟩]⟩) ∧
    (∃ nm, SpellSegments.Reconstruct
        ⟨["cp ".toList, "src".toList, " ".toList, "dst".toList], [1, 3],
          [⟨"src".toList, []⟩, ⟨"dst".toList, []⟩]⟩
        (fun n => if n = "src".toList then some "A".toList else none) =
          .missingValue nm ∧
      (fun n => if n = "src".toList then some "A".toList else none) nm = none ∧
      ∃ i ∈ [1, 3],
        (⟨["cp ".toList, "src".toList, " ".toList, "dst".toList], [1, 3],
          [⟨"src".toList, []⟩, ⟨"dst".toList, []⟩]⟩ : SpellSegments).segments.get? i =
          some nm) ∧
    (∃ out, SpellSegments.Reconstruct
        ⟨["cp ".toList, "src".toList, " ".toList, "dst".toList], [1, 3],
          [⟨"src".toList, []⟩, ⟨"dst".toList, []⟩]⟩
        (fun n => if n = "src".toList then some "A".toList else
          if n = "dst".toList then some "B".toList else none) = .ok out) :=
  ⟨rfl,
    (claim4_missing_value ("cp <src> <dst>".toList) _ _ rfl).2
      ⟨3, by decide, "dst".toList, by decide, by decide⟩,
    (claim4_missing_value ("cp <src> <dst>".toList) _ _ rfl).1
      (by intro i hi nm hnm; fin_cases hi <;> (injection hnm with he; subst he; decide))⟩

/-- C6: for every successfully parsed raw string, concatenating the
segments in order with no separator yields the raw string with every
recognised marker replaced by its bare extracted parameter name
(delimiters and defaults text consumed, literal text preserved in
order). -/
theorem claim6_concat_unsubstituted (s : List Char) (ss : SpellSegments)
    (h : ParseSpell s = .ok ss) : ss.segments.flatten = replaceMarkers s :=
  ParseSpell_flatten h

/-- Witness for C6 at `"echo <name=World>!"`: the segments flatten to the
unsubstituted form `"echo name!"`. -/
theorem claim6_witness :
    (ParseSpell ("echo <name=World>!".toList) =
      .ok ⟨["echo ".toList, "name".toList, "!".toList], [1],
        [⟨"name".toList, ["World".toList]⟩]⟩) ∧
    (⟨["echo ".toList, "name".toList, "!".toList], [1],
        [⟨"name".toList, ["World".toList]⟩]⟩ : SpellSegments).segments.flatten =
      replaceMarkers ("echo <name=World>!".toList) :=
  ⟨rfl, claim6_concat_unsubstituted ("echo <name=World>!".toList) _ rfl⟩

/-- C7: the number of slot indices equals the total number of marker
occurrences (repeats counted individually), while `Params` is the
first-occurrence deduplication of the extracted (name, defaults) pairs —
each distinct name once, in order of first appearance, with its
first-declared defaults; in particular
`"echo <name> and again <name>"` parses to one parameter with two slot
indices and reconstructing with `name ↦ X` substitutes both
occurrences. -/
theorem claim7_dedup_slots :
    (∀ (s : List Char) (ss : SpellSegments), ParseSpell s = .ok ss →
      ss.paramIndices.length = (scan s).1.length ∧
      ss.params = (uniqueFirst ((scan s).1.map (fun pb =>
        extractParamNameAndDefaults pb.2))).map (fun nd => ⟨nd.1, nd.2⟩)) ∧
    ParseSpell ("echo <name> and again <name>".toList) =
      .ok ⟨["echo ".toList, "name".toList, " and again ".toList, "name".toList], [1, 3],
        [⟨"name".toList, []⟩]⟩ ∧
    SpellSegments.Reconstruct
      ⟨["echo ".toList, "name".toList, " and again ".toList, "name".toList], [1, 3],
        [⟨"name".toList, []⟩]⟩
      (fun n => if n = "name".toList then some "X".toList else none) =
      .ok ("echo X and again X".toList) :=
  ⟨fun _ _ h => ParseSpell_params h, rfl, rfl⟩

/-- Witness for the universally quantified part of C7 at
`"mv <ab=1;2> <cd> <ab>"`: three marker occurrences, two unique
parameters. -/
theorem claim7_witness :
    (ParseSpell ("mv <ab=1;2> <cd> <ab>".toList) =
      .ok ⟨["mv ".toList, "ab".toList, " ".toList, "cd".toList, " ".toList, "ab".toList],
        [1, 3, 5], [⟨"ab".toList, ["1".toList, "2".toList]⟩, ⟨"cd".toList, []⟩]⟩) ∧
    ((⟨["mv ".toList, "ab".toList, " ".toList, "cd".toList, " ".toList, "ab".toList],
        [1, 3, 5], [⟨"ab".toList, ["1".toList, "2".toList]⟩, ⟨"cd".toList, []⟩]⟩ :
        SpellSegments).paramIndices.length = (scan ("mv <ab=1;2> <cd> <ab>".toList)).1.length ∧
      (⟨["mv ".toList, "ab".toList, " ".toList, "cd".toList, " ".toList, "ab".toList],
        [1, 3, 5], [⟨"ab".toList, ["1".toList, "2".toList]⟩, ⟨"cd".toList, []⟩]⟩ :
        SpellSegments).params = (uniqueFirst ((scan ("mv <ab=1;2> <cd> <ab>".toList)).1.map
          (fun pb => extractParamNameAndDefaults pb.2))).map (fun nd => ⟨nd.1, nd.2⟩)) :=
  ⟨rfl, claim7_dedup_slots.1 ("mv <ab=1;2> <cd> <ab>".toList) _ rfl⟩

/-- C8: every slot index of a parsed segment sequence is a valid index
into the segments, the indices are strictly increasing, the segment at
each slot index is the name of some recorded parameter, and consequently
`Reconstruct` never hits the out-of-bounds (runtime panic) case. -/
theorem claim8_slot_index_safety (s : List Char) (ss : SpellSegments)
    (values : List Char → Option (List Char)) (h : ParseSpell s = .ok ss) :
    (∀ i ∈ ss.paramIndices, i < ss.segments.length) ∧
    ss.paramIndices.Pairwise (· < ·) ∧
    (∀ i ∈ ss.paramIndices, ∃ p ∈ ss.params, ss.segments.get? i = some p.name) ∧
    ss.Reconstruct values ≠ .outOfBounds := by
  obtain ⟨hb, hpw, hslot⟩ := ParseSpell_inv h
  exact ⟨hb, hpw, hslot, substLoop_not_oob values ss.paramIndices ss.segments hb⟩

/-- Witness for C8 at `"cp <source> <destination>"` under the empty
mapping. -/
theorem claim8_witness :
    (ParseSpell ("cp <source> <destination>".toList) =
      .ok ⟨["cp ".toList, "source".toList, " ".toList, "destination".toList], [1, 3],
        [⟨"source".toList, []⟩, ⟨"destination".toList, []⟩]⟩) ∧
    ((∀ i ∈ ([1, 3] : List Nat), i <
        (⟨["cp ".toList, "source".toList, " ".toList, "destination".toList], [1, 3],
          [⟨"source".toList, []⟩, ⟨"destination".toList, []⟩]⟩ :
          SpellSegments).segments.length) ∧
      ([1, 3] : List Nat).Pairwise (· < ·) ∧
      (∀ i ∈ ([1, 3] : List Nat), ∃ p ∈
        (⟨["cp ".toList, "source".toList, " ".toList, "destination".toList], [1, 3],
          [⟨"source".toList, []⟩, ⟨"destination".toList, []⟩]⟩ :
          SpellSegments).params,
        (⟨["cp ".toList, "source".toList, " ".toList, "destination".toList], [1, 3],
          [⟨"source".toList, []⟩, ⟨"destination".toList, []⟩]⟩ :
          SpellSegments).segments.get? i = some p.name) ∧
      SpellSegments.Reconstruct
        ⟨["cp ".toList, "source".toList, " ".toList, "destination".toList], [1, 3],
          [⟨"source".toList, []⟩, ⟨"destination".toList, []⟩]⟩
        (fun _ => none) ≠ .outOfBounds) :=
  ⟨rfl, claim8_slot_index_safety ("cp <source> <destination>".toList) _ (fun _ => none) rfl⟩

/-- C10: two value mappings that agree on every parameter name stored at
a slot index of a parsed segment sequence produce identical
reconstruction outcomes; entries for names not at any slot are
irrelevant. -/
theorem claim10_mapping_noninterference (s : List Char) (ss : SpellSegments)
    (v1 v2 : List Char → Option (List Char)) (h : ParseSpell s = .ok ss)
    (hagree : ∀ i ∈ ss.paramIndices, ∀ nm, ss.segments.get? i = some nm → v1 nm = v2 nm) :
    ss.Reconstruct v1 = ss.Reconstruct v2 := by
  obtain ⟨-, hpw, -⟩ := ParseSpell_inv h
  exact substLoop_agree v1 v2 ss.paramIndices ss.segments
    (hpw.imp fun hab => Nat.ne_of_lt hab) hagree

/-- Witness for C10 at `"echo <name>"`: a mapping with an extra `junk`
entry reconstructs identically to one without it. -/
theorem claim10_witness :
    (ParseSpell ("echo <name>".toList) =
      .ok ⟨["echo ".toList, "name".toList], [1], [⟨"name".toList, []⟩]⟩) ∧
    SpellSegments.Reconstruct ⟨["echo ".toList, "name".toList], [1], [⟨"name".toList, []⟩]⟩
      (fun n => if n = "name".toList then some "A".toList else
        if n = "junk".toList then some "B".toList else none) =
    SpellSegments.Reconstruct ⟨["echo ".toList, "name".toList], [1], [⟨"name".toList, []⟩]⟩
      (fun n => if n = "name".toList then some "A".toList else none) :=
  ⟨rfl, claim10_mapping_noninterference ("echo <name>".toList) _ _ _ rfl
    (by intro i hi nm hnm; fin_cases hi <;> (injection hnm with he; subst he; decide))⟩

/-- C9: `Reconstruct` never mutates its receiver: the state-passing
rendering of the method returns the fields of the receiver untouched whether
it succeeds or fails, and its outcome is the pure function
`SpellSegments.Reconstruct` of the receiver and the mapping, so repeated
calls on the same segment sequence and mapping yield identical results. -/
theorem claim9_reconstruct_pure (ss : SpellSegments)
    (values : List Char → Option (List Char)) :
    (reconstructSt ss values).1 = ss ∧
    (reconstructSt ss values).2 = ss.Reconstruct values := by
  have h := substLoopSt_eq ss values ss.paramIndices ss.segments
  exact ⟨by rw [reconstructSt, h], by rw [reconstructSt, h]; rfl⟩

end Grimoire
